import Mathlib

/-!
Verification of the `BaseNode` dependency-graph module
(`core/lib/lantern/base-node.js`).

The module manipulates graphs of nodes, each node carrying a unique string
`id`, a mutable `isMainDocument` flag, and two ordered edge lists
`_dependencies` and `_dependents`.  Since node ids are unique within a graph
and all deduplication in the source is keyed by id (or by reference, which
coincides with id inside one graph), we embed a graph as a state indexed by
an abstract finite type `ι` of node ids: each node id is mapped to its two
edge lists and its flag.  Mutating methods become state-passing functions;
methods that throw return `Except`.

The source's unbounded `while` loops (the traversal generator, the cycle
search, `getRootNode`) are embedded with an explicit fuel argument and an
`Option` result, where `some` means the loop terminated with that result;
the fuel given by the wrappers is proved (or, for concrete claims, checked
by evaluation) to be sufficient, so `none` never occurs in any statement
below.
-/

set_option linter.unusedSectionVars false

namespace Lantern

/-- Errors thrown by `BaseNode` methods: `Cannot add dependency on itself`
(`addDependency`), `Dependency somehow not cloned` and
`Cloned graph missing node` (`cloneWithRelationships`). -/
inductive GraphError where
  | selfDependency
  | cloneConsistency
  | cloneResultMissing
deriving DecidableEq, Repr

/-- A graph of `BaseNode`s, indexed by node id: the `_dependencies` and
`_dependents` arrays and the `_isMainDocument` flag of every node. -/
structure GraphState (ι : Type) where
  dependencies : ι → List ι
  dependents : ι → List ι
  isMainDocument : ι → Bool

variable {ι : Type} [DecidableEq ι]

/-- JavaScript `Array.prototype.indexOf`: index of the first occurrence,
`-1` when absent. -/
def jsIndexOf (l : List ι) (x : ι) : Int :=
  if x ∈ l then (l.indexOf x : Int) else -1

/-- JavaScript `Array.prototype.splice(i, 1)`: remove one element at
position `i`, where a negative `i` counts from the end (clamped at 0) and
an out-of-range `i` removes nothing. -/
def jsSplice1 (l : List ι) (i : Int) : List ι :=
  l.take (if i < 0 then (l.length + i).toNat else i.toNat) ++
    l.drop ((if i < 0 then (l.length + i).toNat else i.toNat) + 1)

/-- `addDependency(node)` invoked on node `self`: throws on a
self-dependency, no-ops when `node` is already a listed dependency,
otherwise pushes `self` onto `node._dependents` and `node` onto
`self._dependencies`. -/
def addDependency (s : GraphState ι) (self node : ι) : Except GraphError (GraphState ι) :=
  if node = self then .error .selfDependency
  else if node ∈ s.dependencies self then .ok s
  else .ok
    { s with
      dependents := Function.update s.dependents node (s.dependents node ++ [self])
      dependencies := Function.update s.dependencies self (s.dependencies self ++ [node]) }

/-- `addDependent(node)`: delegates to `node.addDependency(this)`. -/
def addDependent (s : GraphState ι) (self node : ι) : Except GraphError (GraphState ι) :=
  addDependency s node self

/-- `removeDependency(node)`: no-ops when `node` is not a listed
dependency, otherwise splices `self` out of `node._dependents` (at
`indexOf`, which the source does not guard) and `node` out of
`self._dependencies`. -/
def removeDependency (s : GraphState ι) (self node : ι) : GraphState ι :=
  if node ∈ s.dependencies self then
    let s1 :=
      { s with
        dependents :=
          Function.update s.dependents node
            (jsSplice1 (s.dependents node) (jsIndexOf (s.dependents node) self)) }
    { s1 with
      dependencies :=
        Function.update s1.dependencies self
          (jsSplice1 (s1.dependencies self) (jsIndexOf (s1.dependencies self) node)) }
  else s

/-- `removeDependent(node)`: delegates to `node.removeDependency(this)`. -/
def removeDependent (s : GraphState ι) (self node : ι) : GraphState ι :=
  removeDependency s node self

/-- `removeAllDependencies()`: removes every dependency edge of `self`,
iterating over a snapshot (`slice()`) of the current dependency list. -/
def removeAllDependencies (s : GraphState ι) (self : ι) : GraphState ι :=
  (s.dependencies self).foldl (fun acc node => removeDependency acc self node) s

/-- Edge-pairing symmetry: `A` is in `B.dependencies` iff `B` is in
`A.dependents`. -/
def EdgeSymm (s : GraphState ι) : Prop :=
  ∀ a b : ι, a ∈ s.dependencies b ↔ b ∈ s.dependents a

/-- No duplicate entries in any node's edge lists (spec invariant 2). -/
def NodupEdges (s : GraphState ι) : Prop :=
  ∀ a : ι, (s.dependencies a).Nodup ∧ (s.dependents a).Nodup

/-- The inductive structural invariant: edge symmetry together with
duplicate-freeness of the edge lists. -/
def EdgeInvariant (s : GraphState ι) : Prop :=
  EdgeSymm s ∧ NodupEdges s

instance [Fintype ι] (s : GraphState ι) : Decidable (EdgeSymm s) := by
  unfold EdgeSymm; infer_instance

instance [Fintype ι] (s : GraphState ι) : Decidable (NodupEdges s) := by
  unfold NodupEdges; infer_instance

instance [Fintype ι] (s : GraphState ι) : Decidable (EdgeInvariant s) := by
  unfold EdgeInvariant; infer_instance

/-! ### Traversal engine (`traverseGenerator` / `traverse`)

The generator keeps a queue of traversal paths (each path is a nonempty
list with the path's node first and the traversal start last; we store it
as the node paired with the rest of the path) and a `visited` set of ids.
It repeatedly shifts a path off the queue, yields it, and pushes
`[nextNode, ...traversalPath]` for every expansion result whose id is not
yet visited, marking ids visited at enqueue time. -/

/-- One expansion round of the generator's inner `for` loop: walk the
expansion results in order, skipping ids already visited and otherwise
marking them visited and collecting them for the queue, in order. -/
def enqueueNew (visited : Finset ι) : List ι → List ι × Finset ι
  | [] => ([], visited)
  | m :: ms =>
    if m ∈ visited then enqueueNew visited ms
    else
      (m :: (enqueueNew (insert m visited) ms).1, (enqueueNew (insert m visited) ms).2)

/-- The generator's `while (queue.length)` loop, with explicit fuel.
Entries are `(node, rest)` pairs standing for the traversal path
`node :: rest`; each iteration shifts the front entry, yields
`(node, node :: rest)`, and enqueues the unvisited expansion results at
the back. -/
def traverseAuxF (next : ι → List ι) : ℕ → List (ι × List ι) → Finset ι → Option (List (ι × List ι))
  | _, [], _ => some []
  | 0, _ :: _, _ => none
  | fuel + 1, (n, rest) :: queue, visited =>
    match traverseAuxF next fuel
        (queue ++ (enqueueNew visited (next n)).1.map (fun m => (m, n :: rest)))
        (enqueueNew visited (next n)).2 with
    | none => none
    | some out => some ((n, n :: rest) :: out)

variable [Fintype ι]

/-- The full sequence of `{node, traversalPath}` pairs yielded by
`traverseGenerator(getNextNodes)` started at `start` (and hence the
sequence of `callback` invocations made by `traverse`).  `Fintype.card ι`
fuel always suffices (`traverseAuxF_isSome` below), so the `getD` default
is never taken. -/
def traverseGenerator (next : ι → List ι) (start : ι) : List (ι × List ι) :=
  (traverseAuxF next (Fintype.card ι) [(start, [])] {start}).getD []

/-- Reachability along an expansion function: `b` is reachable from `a`
via zero or more `getNextNodes` steps. -/
def Reaches (next : ι → List ι) (a b : ι) : Prop :=
  Relation.ReflTransGen (fun x y => y ∈ next x) a b

/-- Valid reverse traversal paths: the list runs from a node backward to
`start`, each element being an expansion result of its successor in the
list. -/
def ValidRevPath (next : ι → List ι) (start : ι) : List ι → Prop
  | [] => False
  | [n] => n = start
  | n :: m :: p => n ∈ next m ∧ ValidRevPath next start (m :: p)

instance instDecValidRevPath (next : ι → List ι) (start : ι) :
    ∀ l, Decidable (ValidRevPath next start l)
  | [] => isFalse id
  | [n] => decidable_of_iff (n = start) Iff.rfl
  | n :: m :: p =>
    letI : Decidable (ValidRevPath next start (m :: p)) := instDecValidRevPath next start (m :: p)
    decidable_of_iff (n ∈ next m ∧ ValidRevPath next start (m :: p)) Iff.rfl

/-- The set of nodes reachable from `start` in at most `k` expansion
steps. -/
def reachInN (next : ι → List ι) (start : ι) : ℕ → Finset ι
  | 0 => {start}
  | k + 1 =>
    reachInN next start k ∪ (reachInN next start k).biUnion (fun v => (next v).toFinset)

/-! ### Cycle detection (`static hasCycle`) -/

/-- The `'dependents' | 'dependencies' | 'both'` direction argument of
`hasCycle`. -/
inductive Direction where
  | dependents
  | dependencies
  | both
deriving DecidableEq, Repr

/-- The backtracking step
`while (currentPath.length > depthAdded.get(currentNode)) currentPath.pop()`.
`currentPath` is kept with its most recently pushed element first; a
missing `depthAdded` entry (`undefined` in the source) makes the
comparison false at once, leaving the path unchanged. -/
def truncatePath (path : List ι) : Option ℕ → List ι
  | none => path
  | some k => path.drop (path.length - k)

/-- The `for (const nextNode of nodesToExplore)` loop of `hasCycle`: push
each explored node not already on the `toVisit` stack (checked against the
growing stack) and record the depth at which it was added. -/
def pushExplore (depth : ℕ) : List ι → List ι → (ι → Option ℕ) → List ι × (ι → Option ℕ)
  | [], toVisit, depthAdded => (toVisit, depthAdded)
  | m :: ms, toVisit, depthAdded =>
    if m ∈ toVisit then pushExplore depth ms toVisit depthAdded
    else pushExplore depth ms (m :: toVisit) (Function.update depthAdded m (some depth))

/-- The `while (toVisit.length)` loop of `hasCycle`, with explicit fuel.
The `toVisit` stack is kept with its top (the end of the source array)
first.  A node popped while already on `currentPath` is a cycle; an
already-visited node is skipped; otherwise the path is truncated to the
node's recorded depth, the node is marked visited and pushed on the path,
and its edges in the chosen direction are pushed on the stack. -/
def hasCycleAuxF (edges : ι → List ι) :
    ℕ → List ι → Finset ι → List ι → (ι → Option ℕ) → Option Bool
  | _, [], _, _, _ => some false
  | 0, _ :: _, _, _, _ => none
  | fuel + 1, currentNode :: toVisit, visited, currentPath, depthAdded =>
    if currentNode ∈ currentPath then some true
    else if currentNode ∈ visited then
      hasCycleAuxF edges fuel toVisit visited currentPath depthAdded
    else
      hasCycleAuxF edges fuel
        (pushExplore ((truncatePath currentPath (depthAdded currentNode)).length + 1)
          (edges currentNode) toVisit depthAdded).1
        (insert currentNode visited)
        (currentNode :: truncatePath currentPath (depthAdded currentNode))
        (pushExplore ((truncatePath currentPath (depthAdded currentNode)).length + 1)
          (edges currentNode) toVisit depthAdded).2

/-- A fuel budget for the cycle search, generous enough for every concrete
evaluation below: the loop visits each node at most once and re-pushes
nodes at most once per edge-list entry. -/
def cycleSearchFuel (s : GraphState ι) : ℕ :=
  (1 + Finset.univ.sum fun n => (s.dependents n).length + (s.dependencies n).length) *
    (1 + Fintype.card ι)

/-- The single-direction cycle search from `node`, over the given edge
selector. -/
def hasCycleDir (s : GraphState ι) (node : ι) (edges : ι → List ι) : Option Bool :=
  hasCycleAuxF edges (cycleSearchFuel s) [node] ∅ []
    (Function.update (fun _ => none) node (some 0))

/-- `static hasCycle(node, direction)`: the `'both'` entry point checks
`'dependents'` first and, only when that returns `false`, `'dependencies'`
(the source's short-circuiting `||`). -/
def hasCycle (s : GraphState ι) (node : ι) : Direction → Option Bool
  | .dependents => hasCycleDir s node s.dependents
  | .dependencies => hasCycleDir s node s.dependencies
  | .both =>
    match hasCycleDir s node s.dependents with
    | none => none
    | some true => some true
    | some false => hasCycleDir s node s.dependencies

/-! ### Root resolution (`getRootNode`) -/

/-- The `while (rootNode._dependencies.length)` loop of `getRootNode`:
follow the first listed dependency until a node with none remains.  The
source loop is unbounded; `none` models running out of fuel (the wrapper's
budget is proved sufficient for acyclic graphs). -/
def getRootNodeAux (s : GraphState ι) : ℕ → ι → Option ι
  | fuel, n =>
    match s.dependencies n with
    | [] => some n
    | d :: _ =>
      match fuel with
      | 0 => none
      | fuel + 1 => getRootNodeAux s fuel d

/-- `getRootNode()` invoked on node `n`. -/
def getRootNode (s : GraphState ι) (n : ι) : Option ι :=
  getRootNodeAux s (Fintype.card ι) n

/-- Acyclicity of the dependency edges: no node reaches itself by one or
more dependency steps (spec invariant 3 / 1). -/
def AcyclicDeps (s : GraphState ι) : Prop :=
  ∀ n : ι, ¬ Relation.TransGen (fun a b => b ∈ s.dependencies a) n n

/-- Undirected adjacency, for stating graph connectivity. -/
def neighbors (s : GraphState ι) (n : ι) : List ι :=
  s.dependencies n ++ s.dependents n

/-- Connectivity of the whole graph: every node reaches every other along
undirected edges. -/
def IsConnected (s : GraphState ι) : Prop :=
  ∀ a b : ι, Relation.ReflTransGen (fun x y => y ∈ neighbors s x) a b

/-! ### Subgraph cloning (`cloneWithRelationships`)

A clone produced by `cloneWithoutRelationships` carries only the original
node's `id` and `isMainDocument` flag and starts with empty edge lists, so
the clone map `idsToIncludedClones` is embedded as the `Finset` of
included ids together with a clone `GraphState` whose edge lists start
empty and whose flags are copied from the original. -/

/-- The inner backfill traversal of `cloneWithRelationships`: when a node
satisfies the predicate, `node.traverse` walks backward along
`node._dependencies.filter(parent => !idsToIncludedClones.has(parent.id))`,
cloning (inserting into the map) every node it yields.  The filter reads
the map as it grows: the callback for a yielded node runs before that
node's expansion. -/
def cloneBackfillAuxF (s : GraphState ι) : ℕ → List ι → Finset ι → Finset ι → Option (Finset ι)
  | _, [], _, map => some map
  | 0, _ :: _, _, _ => none
  | fuel + 1, n :: queue, visited, map =>
    cloneBackfillAuxF s fuel
      (queue ++
        (enqueueNew visited ((s.dependencies n).filter (fun p => p ∉ insert n map))).1)
      (enqueueNew visited ((s.dependencies n).filter (fun p => p ∉ insert n map))).2
      (insert n map)

/-- The backfill traversal started at a predicate-satisfying node. -/
def cloneBackfill (s : GraphState ι) (start : ι) (map : Finset ι) : Option (Finset ι) :=
  cloneBackfillAuxF s (Fintype.card ι) [start] {start} map

/-- The first pass of `cloneWithRelationships`: walk the whole graph down
`dependents` from the root (the `order` list) and build the clone map —
every node when no predicate is given, otherwise the backfilled ancestor
closure of each node satisfying the predicate. -/
def cloneCollect (s : GraphState ι) (pred : Option (ι → Bool)) :
    List ι → Finset ι → Option (Finset ι)
  | [], map => some map
  | node :: order, map =>
    if node ∈ map then cloneCollect s pred order map
    else
      match pred with
      | none => cloneCollect s pred order (insert node map)
      | some p =>
        if p node then
          match cloneBackfill s node map with
          | none => none
          | some map1 => cloneCollect s pred order map1
        else cloneCollect s pred order map

/-- The `for (const dependency of originalNode._dependencies)` loop of the
second pass: look up each dependency's clone, failing with the
`Dependency somehow not cloned` error when absent, and recreate the edge
with `addDependency` on the clones. -/
def cloneEdgesNode (map : Finset ι) (node : ι) :
    GraphState ι → List ι → Except GraphError (GraphState ι)
  | clone, [] => .ok clone
  | clone, dep :: deps =>
    if dep ∈ map then
      match addDependency clone node dep with
      | .error e => .error e
      | .ok clone1 => cloneEdgesNode map node clone1 deps
    else .error .cloneConsistency

/-- The second pass of `cloneWithRelationships`: for every traversed
original node that has a clone, recreate each of its dependency edges
between the corresponding clones. -/
def cloneEdges (s : GraphState ι) (map : Finset ι) :
    GraphState ι → List ι → Except GraphError (GraphState ι)
  | clone, [] => .ok clone
  | clone, node :: order =>
    if node ∈ map then
      match cloneEdgesNode map node clone (s.dependencies node) with
      | .error e => .error e
      | .ok clone1 => cloneEdges s map clone1 order
    else cloneEdges s map clone order

/-- The clone graph before any edges are recreated: every cloned node has
empty edge lists and keeps its original `isMainDocument` flag. -/
def emptyClone (s : GraphState ι) : GraphState ι :=
  { dependencies := fun _ => [], dependents := fun _ => [], isMainDocument := s.isMainDocument }

/-- `cloneWithRelationships(predicate)` invoked on node `this`: locate the
root, traverse the graph down `dependents` building the clone map, rebuild
the dependency edges between clones, and finally fail with the
`Cloned graph missing node` error when `this` itself was not cloned.  The
result pairs the clone graph with the set of cloned ids; the outer `none`
models divergence of the source's unbounded loops (never hit below). -/
def cloneWithRelationships (s : GraphState ι) (this : ι) (pred : Option (ι → Bool)) :
    Option (Except GraphError (GraphState ι × Finset ι)) :=
  match getRootNode s this with
  | none => none
  | some root =>
    match cloneCollect s pred ((traverseGenerator s.dependents root).map Prod.fst) ∅ with
    | none => none
    | some map =>
      some
        (match cloneEdges s map (emptyClone s) ((traverseGenerator s.dependents root).map Prod.fst) with
        | .error e => .error e
        | .ok clone => if this ∈ map then .ok (clone, map) else .error .cloneResultMissing)

/-- Projection of a clone result: the set of cloned ids, when the
operation terminated without throwing. -/
def cloneResultIncluded (r : Option (Except GraphError (GraphState ι × Finset ι))) :
    Option (Finset ι) :=
  match r with
  | some (.ok (_, map)) => some map
  | _ => none

/-- Membership of node `n` in the clone map of a clone result that
terminated without throwing. -/
def cloneResultHas (r : Option (Except GraphError (GraphState ι × Finset ι))) (n : ι) :
    Prop :=
  match r with
  | some (.ok (_, map)) => n ∈ map
  | _ => False

instance (r : Option (Except GraphError (GraphState ι × Finset ι))) (n : ι) :
    Decidable (cloneResultHas r n) :=
  match r with
  | some (.ok (_, map)) => inferInstanceAs (Decidable (n ∈ map))
  | some (.error _) => isFalse (fun h => h)
  | none => isFalse (fun h => h)

/-- Projection of a clone result: the dependency list of node `n`'s clone,
when the operation terminated without throwing. -/
def cloneResultDeps (r : Option (Except GraphError (GraphState ι × Finset ι))) (n : ι) :
    Option (List ι) :=
  match r with
  | some (.ok (c, _)) => some (c.dependencies n)
  | _ => none

/-- Projection of a clone result: the dependent list of node `n`'s clone,
when the operation terminated without throwing. -/
def cloneResultDependents (r : Option (Except GraphError (GraphState ι × Finset ι))) (n : ι) :
    Option (List ι) :=
  match r with
  | some (.ok (c, _)) => some (c.dependents n)
  | _ => none

/-! ### Concrete graphs used by the claims -/

/-- A four-node id universe. -/
inductive N4 where
  | R
  | B
  | C
  | D
deriving DecidableEq, Fintype, Repr

/-- A three-node id universe. -/
inductive N3 where
  | A
  | B
  | C
deriving DecidableEq, Fintype, Repr

/-- The diamond graph with root `R`, dependency edges `B→R`, `C→R`,
`D→B`, `D→C` (so `R → B → D` and `R → C → D` along dependents), as built
by `addDependency` calls. -/
def exG4 : GraphState N4 where
  dependencies := fun n =>
    match n with
    | .R => []
    | .B => [.R]
    | .C => [.R]
    | .D => [.B, .C]
  dependents := fun n =>
    match n with
    | .R => [.B, .C]
    | .B => [.D]
    | .C => [.D]
    | .D => []
  isMainDocument := fun _ => false

/-- The predicate of claim C4: keep only node `D`. -/
def predD : N4 → Bool := fun n => n = N4.D

/-- The empty graph on `N4`: no edges. -/
def emptyG4 : GraphState N4 where
  dependencies := fun _ => []
  dependents := fun _ => []
  isMainDocument := fun _ => false

/-- The state `addDependency emptyG4 R B` produces: the single edge
`R depends on B`. -/
def oneEdgeG4 : GraphState N4 :=
  { emptyG4 with
    dependents := Function.update emptyG4.dependents N4.B (emptyG4.dependents N4.B ++ [N4.R])
    dependencies :=
      Function.update emptyG4.dependencies N4.R (emptyG4.dependencies N4.R ++ [N4.B]) }

/-- A state satisfying edge symmetry but with a duplicated entry in a
dependency list: `R.dependencies = [B, B]`, `B.dependents = [R]`. -/
def dupG4 : GraphState N4 where
  dependencies := fun n =>
    match n with
    | .R => [.B, .B]
    | _ => []
  dependents := fun n =>
    match n with
    | .B => [.R]
    | _ => []
  isMainDocument := fun _ => false

/-- The three-node dependency cycle `A→B→C→A` of claim C3
(`B ∈ A.dependencies`, `C ∈ B.dependencies`, `A ∈ C.dependencies`). -/
def cycG3 : GraphState N3 where
  dependencies := fun n =>
    match n with
    | .A => [.B]
    | .B => [.C]
    | .C => [.A]
  dependents := fun n =>
    match n with
    | .A => [.C]
    | .B => [.A]
    | .C => [.B]
  isMainDocument := fun _ => false

/-- The same three nodes with the back-edge `C→A` removed. -/
def acycG3 : GraphState N3 where
  dependencies := fun n =>
    match n with
    | .A => [.B]
    | .B => [.C]
    | .C => []
  dependents := fun n =>
    match n with
    | .A => []
    | .B => [.A]
    | .C => [.B]
  isMainDocument := fun _ => false

/-- The connected, acyclic, symmetry-satisfying graph in which `A` depends
on both `B` and `C` (`A.dependencies = [B, C]`): following first
dependencies from `A` ends at `B`, while `C` is its own dependency-free
end point. -/
def twoRootsG3 : GraphState N3 where
  dependencies := fun n =>
    match n with
    | .A => [.B, .C]
    | _ => []
  dependents := fun n =>
    match n with
    | .B => [.A]
    | .C => [.A]
    | _ => []
  isMainDocument := fun _ => false

/-! ## Edge-management lemmas and claims C1, C5, C6 -/

theorem jsSplice1_natCast (l : List ι) (n : ℕ) :
    jsSplice1 l (n : Int) = l.take n ++ l.drop (n + 1) := by
  rw [jsSplice1, if_neg (by omega), Int.toNat_natCast]

theorem jsSplice1_indexOf_erase (l : List ι) (x : ι) (hx : x ∈ l) :
    jsSplice1 l (jsIndexOf l x) = l.erase x := by
  induction l with
  | nil => cases hx
  | cons a t ih =>
    by_cases hax : a = x
    · subst hax
      rw [jsIndexOf, if_pos (List.mem_cons_self a t), List.indexOf_cons_self,
        List.erase_cons_head, jsSplice1_natCast]
      simp
    · have hxt : x ∈ t := by
        rcases List.mem_cons.1 hx with h | h
        · subst h
          exact absurd rfl hax
        · exact h
      have hrec := ih hxt
      rw [jsIndexOf, if_pos hxt] at hrec
      rw [jsIndexOf, if_pos hx, List.indexOf_cons_ne t hax,
        List.erase_cons_tail (by simpa using hax), Nat.succ_eq_add_one,
        jsSplice1_natCast]
      simp only [List.take_succ_cons, List.drop_succ_cons, List.cons_append]
      rw [← hrec, jsSplice1_natCast]

theorem mem_update_append {f : ι → List ι} {c e x y : ι} :
    x ∈ Function.update f c (f c ++ [e]) y ↔ x ∈ f y ∨ (y = c ∧ x = e) := by
  rw [Function.update_apply]
  split_ifs with h
  · subst h
    simp [List.mem_append]
  · simp [h]

theorem mem_update_erase {f : ι → List ι} (hf : (f c).Nodup) {e x y : ι} :
    x ∈ Function.update f c ((f c).erase e) y ↔ x ∈ f y ∧ ¬(y = c ∧ x = e) := by
  rw [Function.update_apply]
  split_ifs with h
  · subst h
    rw [hf.mem_erase_iff]
    tauto
  · simp [h]

theorem nodup_update {f : ι → List ι} {c : ι} {L : List ι} (hL : L.Nodup)
    (hf : ∀ z, (f z).Nodup) (y : ι) : (Function.update f c L y).Nodup := by
  rw [Function.update_apply]
  split_ifs
  · exact hL
  · exact hf y

theorem removeDependency_of_mem (s : GraphState ι) (a b : ι)
    (hb : b ∈ s.dependencies a) (hsym : a ∈ s.dependents b) :
    removeDependency s a b =
      { s with
        dependents := Function.update s.dependents b ((s.dependents b).erase a)
        dependencies := Function.update s.dependencies a ((s.dependencies a).erase b) } := by
  rw [removeDependency, if_pos hb]
  simp only [Function.update_apply]
  rw [jsSplice1_indexOf_erase _ _ hsym, jsSplice1_indexOf_erase _ _ hb]

theorem edgeInvariant_addDependency (s : GraphState ι) (h : EdgeInvariant s)
    (a b : ι) (s' : GraphState ι) (hadd : addDependency s a b = .ok s') :
    EdgeInvariant s' := by
  obtain ⟨hsym, hnd⟩ := h
  rw [addDependency] at hadd
  split_ifs at hadd with h1 h2
  · rw [Except.ok.injEq] at hadd
    subst hadd
    exact ⟨hsym, hnd⟩
  · rw [Except.ok.injEq] at hadd
    subst hadd
    have hba : a ∉ s.dependents b := fun hmem => h2 ((hsym b a).2 hmem)
    constructor
    · intro x y
      show x ∈ Function.update s.dependencies a (s.dependencies a ++ [b]) y ↔
        y ∈ Function.update s.dependents b (s.dependents b ++ [a]) x
      rw [mem_update_append, mem_update_append, hsym x y]
      tauto
    · intro x
      exact ⟨nodup_update (by simp [List.nodup_append, (hnd a).1, h2]) (fun z => (hnd z).1) x,
        nodup_update (by simp [List.nodup_append, (hnd b).2, hba]) (fun z => (hnd z).2) x⟩

theorem edgeInvariant_removeDependency (s : GraphState ι) (h : EdgeInvariant s)
    (a b : ι) : EdgeInvariant (removeDependency s a b) := by
  obtain ⟨hsym, hnd⟩ := h
  by_cases hb : b ∈ s.dependencies a
  · rw [removeDependency_of_mem s a b hb ((hsym b a).1 hb)]
    constructor
    · intro x y
      show x ∈ Function.update s.dependencies a ((s.dependencies a).erase b) y ↔
        y ∈ Function.update s.dependents b ((s.dependents b).erase a) x
      rw [mem_update_erase (hnd a).1, mem_update_erase (hnd b).2, hsym x y]
      tauto
    · intro x
      exact ⟨nodup_update ((hnd a).1.erase b) (fun z => (hnd z).1) x,
        nodup_update ((hnd b).2.erase a) (fun z => (hnd z).2) x⟩
  · rw [removeDependency, if_neg hb]
    exact ⟨hsym, hnd⟩

theorem edgeInvariant_removeAll_fold (a : ι) :
    ∀ (l : List ι) (s : GraphState ι), EdgeInvariant s →
      EdgeInvariant (l.foldl (fun acc node => removeDependency acc a node) s)
  | [], _, h => h
  | _ :: t, s, h =>
    edgeInvariant_removeAll_fold a t _ (edgeInvariant_removeDependency s h a _)

/-- Claim C1 (amended): edge symmetry — `A ∈ B.dependencies` iff
`B ∈ A.dependents` — together with duplicate-freeness of the edge lists is
preserved by every edge-management operation (`addDependency`,
`addDependent`, `removeDependency`, `removeDependent`,
`removeAllDependencies`) from any state satisfying both.  (Symmetry alone
is not inductive: see `edgeSymm_not_preserved_cex`.) -/
theorem edgeInvariant_preserved (s : GraphState ι) (h : EdgeInvariant s) :
    (∀ a b s', addDependency s a b = .ok s' → EdgeInvariant s') ∧
    (∀ a b s', addDependent s a b = .ok s' → EdgeInvariant s') ∧
    (∀ a b, EdgeInvariant (removeDependency s a b)) ∧
    (∀ a b, EdgeInvariant (removeDependent s a b)) ∧
    (∀ a, EdgeInvariant (removeAllDependencies s a)) := by
  refine ⟨fun a b s' hadd => edgeInvariant_addDependency s h a b s' hadd,
    fun a b s' hadd => edgeInvariant_addDependency s h b a s' hadd,
    fun a b => edgeInvariant_removeDependency s h a b,
    fun a b => edgeInvariant_removeDependency s h b a,
    fun a => edgeInvariant_removeAll_fold a _ s h⟩

/-- Claim C1, counterexample to the claim as stated: `dupG4` satisfies the
symmetry invariant (`R.dependencies = [B, B]`, `B.dependents = [R]`), yet
`R.removeDependency(B)` — which removes only the first copy of `B` from
`R.dependencies` but the sole `R` from `B.dependents` — breaks it. -/
theorem edgeSymm_not_preserved_cex :
    EdgeSymm dupG4 ∧ ¬ EdgeSymm (removeDependency dupG4 N4.R N4.B) := by
  constructor
  · decide
  · decide

/-- The state `addDependency exG4 B C` produces. -/
def addBCresult : GraphState N4 :=
  { exG4 with
    dependents := Function.update exG4.dependents N4.C (exG4.dependents N4.C ++ [N4.B])
    dependencies := Function.update exG4.dependencies N4.B (exG4.dependencies N4.B ++ [N4.C]) }

/-- The state `addDependency exG4 R D` (that is, `addDependent exG4 D R`)
produces. -/
def addRDresult : GraphState N4 :=
  { exG4 with
    dependents := Function.update exG4.dependents N4.D (exG4.dependents N4.D ++ [N4.R])
    dependencies := Function.update exG4.dependencies N4.R (exG4.dependencies N4.R ++ [N4.D]) }

/-- Witness for `edgeInvariant_preserved` on the concrete diamond graph. -/
theorem edgeInvariant_preserved_witness :
    EdgeInvariant exG4 ∧ EdgeInvariant addBCresult ∧ EdgeInvariant addRDresult ∧
    EdgeInvariant (removeDependency exG4 N4.B N4.R) ∧
    EdgeInvariant (removeDependent exG4 N4.R N4.B) ∧
    EdgeInvariant (removeAllDependencies exG4 N4.D) :=
  ⟨by decide,
    (edgeInvariant_preserved exG4 (by decide)).1 N4.B N4.C addBCresult rfl,
    (edgeInvariant_preserved exG4 (by decide)).2.1 N4.D N4.R addRDresult rfl,
    (edgeInvariant_preserved exG4 (by decide)).2.2.1 N4.B N4.R,
    (edgeInvariant_preserved exG4 (by decide)).2.2.2.1 N4.R N4.B,
    (edgeInvariant_preserved exG4 (by decide)).2.2.2.2 N4.D⟩

/-- Claim C5: `addDependency(self)` always fails with the self-dependency
error; since the throw happens before any mutation, the graph state is
exactly as before the call (the embedding returns no new state on
error). -/
theorem addDependency_self_error (s : GraphState ι) (n : ι) :
    addDependency s n n = .error .selfDependency := by
  rw [addDependency, if_pos rfl]

/-- Claim C6: adding an already-present dependency is a no-op — a second
`addDependency` returns the state produced by the first unchanged — and
`removeDependency` of an absent edge returns the state unchanged. -/
theorem edge_mutation_idempotent (s : GraphState ι) (a b : ι) :
    (∀ s', addDependency s a b = .ok s' → addDependency s' a b = .ok s') ∧
    (b ∉ s.dependencies a → removeDependency s a b = s) := by
  constructor
  · intro s' hadd
    rw [addDependency] at hadd
    split_ifs at hadd with h1 h2
    · rw [Except.ok.injEq] at hadd
      subst hadd
      rw [addDependency, if_neg h1, if_pos h2]
    · rw [Except.ok.injEq] at hadd
      subst hadd
      simp [addDependency, h1, Function.update_apply]
  · intro hb
    rw [removeDependency, if_neg hb]

/-- Witness for `edge_mutation_idempotent`: on the empty graph,
`addDependency` produces `oneEdgeG4` and is then a no-op, and
`removeDependency` of the absent edge is a no-op. -/
theorem edge_mutation_idempotent_witness :
    addDependency oneEdgeG4 N4.R N4.B = .ok oneEdgeG4 ∧
    removeDependency emptyG4 N4.R N4.B = emptyG4 :=
  ⟨(edge_mutation_idempotent emptyG4 N4.R N4.B).1 oneEdgeG4 rfl,
    (edge_mutation_idempotent emptyG4 N4.R N4.B).2 (by decide)⟩

/-! ## Claim C3: cycle detection -/

/-- Claim C3: for the dependency cycle `A→B→C→A`,
`hasCycle(A, 'dependencies')` finds the cycle; with the back-edge `C→A`
removed it does not; and the diamond `exG4` (edges `R→B`, `R→C`, `B→D`,
`C→D` along dependents, mirrored along dependencies) has no cycle in
either direction — the second visit of `D` arrives over a cross-edge while
`D` is no longer on the active DFS path, so it is skipped via the
`visited` set rather than reported as a cycle.  `some` records that each
search loop terminated. -/
theorem hasCycle_examples :
    hasCycle cycG3 N3.A Direction.dependencies = some true ∧
    hasCycle acycG3 N3.A Direction.dependencies = some false ∧
    hasCycle exG4 N4.R Direction.both = some false := by
  refine ⟨by decide, by decide, by decide⟩

/-! ## Claim C9: root resolution -/

theorem acyclicDeps_of_rank (s : GraphState ι) (f : ι → ℕ)
    (hf : ∀ a b : ι, b ∈ s.dependencies a → f b < f a) : AcyclicDeps s := by
  intro n hn
  have key : ∀ x y : ι, Relation.TransGen (fun a b => b ∈ s.dependencies a) x y → f y < f x := by
    intro x y h
    induction h with
    | single h1 => exact hf _ _ h1
    | tail _ h1 ih => exact lt_trans (hf _ _ h1) ih
  exact absurd (key n n hn) (lt_irrefl _)

theorem getRootNodeAux_deps_nil (s : GraphState ι) :
    ∀ (fuel : ℕ) (n r : ι), getRootNodeAux s fuel n = some r → s.dependencies r = [] := by
  intro fuel
  induction fuel with
  | zero =>
    intro n r h
    rw [getRootNodeAux] at h
    cases hd : s.dependencies n with
    | nil =>
      rw [hd] at h
      cases h
      exact hd
    | cons d t =>
      rw [hd] at h
      cases h
  | succ fuel ih =>
    intro n r h
    rw [getRootNodeAux] at h
    cases hd : s.dependencies n with
    | nil =>
      rw [hd] at h
      cases h
      exact hd
    | cons d t =>
      rw [hd] at h
      exact ih d r h

theorem getRootNodeAux_isSome (s : GraphState ι) (hac : AcyclicDeps s) :
    ∀ (fuel : ℕ) (n : ι) (seen : Finset ι),
      (∀ m ∈ seen, Relation.TransGen (fun a b => b ∈ s.dependencies a) m n) →
      Fintype.card ι ≤ seen.card + fuel + 1 →
      ∃ r, getRootNodeAux s fuel n = some r := by
  intro fuel
  induction fuel with
  | zero =>
    intro n seen hseen hcard
    cases hd : s.dependencies n with
    | nil => exact ⟨n, by rw [getRootNodeAux, hd]⟩
    | cons d t =>
      exfalso
      have hnseen : n ∉ seen := fun hmem => hac n (hseen n hmem)
      have hcard2 : (insert n seen).card = Fintype.card ι :=
        le_antisymm (Finset.card_le_univ _)
          (by rw [Finset.card_insert_of_not_mem hnseen]; omega)
      have huniv : insert n seen = Finset.univ := Finset.eq_univ_of_card _ hcard2
      have hd' : d ∈ s.dependencies n := by rw [hd]; exact List.mem_cons_self d t
      have hstep : ∀ m ∈ insert n seen,
          Relation.TransGen (fun a b => b ∈ s.dependencies a) m d := by
        intro m hm
        rcases Finset.mem_insert.1 hm with rfl | hm2
        · exact Relation.TransGen.single hd'
        · exact Relation.TransGen.tail (hseen m hm2) hd'
      exact hac d (hstep d (huniv ▸ Finset.mem_univ d))
  | succ fuel ih =>
    intro n seen hseen hcard
    cases hd : s.dependencies n with
    | nil => exact ⟨n, by rw [getRootNodeAux, hd]⟩
    | cons d t =>
      have hnseen : n ∉ seen := fun hmem => hac n (hseen n hmem)
      have hstep : ∀ m ∈ insert n seen,
          Relation.TransGen (fun a b => b ∈ s.dependencies a) m d := by
        intro m hm
        have hd' : d ∈ s.dependencies n := by rw [hd]; exact List.mem_cons_self d t
        rcases Finset.mem_insert.1 hm with rfl | hm2
        · exact Relation.TransGen.single hd'
        · exact Relation.TransGen.tail (hseen m hm2) hd'
      obtain ⟨r, hr⟩ := ih d (insert n seen) hstep
        (by rw [Finset.card_insert_of_not_mem hnseen]; omega)
      exact ⟨r, by rw [getRootNodeAux, hd]; exact hr⟩

/-- Claim C9 (amended): in a finite acyclic graph with a unique
dependency-free node `r`, `getRootNode()` called on any node terminates
and returns `r` — in particular any two members agree.  (On a merely
connected graph this fails: see `getRootNode_connected_cex`.) -/
theorem getRootNode_unique_root (s : GraphState ι) (hac : AcyclicDeps s) (r : ι)
    (hr : s.dependencies r = []) (hu : ∀ x : ι, s.dependencies x = [] → x = r) :
    ∀ a : ι, getRootNode s a = some r := by
  intro a
  obtain ⟨r', hr'⟩ := getRootNodeAux_isSome s hac (Fintype.card ι) a ∅
    (by intro m hm; cases hm) (by simp)
  rw [getRootNode, hr', hu r' (getRootNodeAux_deps_nil s _ _ _ hr')]

/-- Witness for `getRootNode_unique_root` on the concrete diamond graph:
`R` is its unique dependency-free node and every member resolves to it. -/
theorem getRootNode_unique_root_witness :
    AcyclicDeps exG4 ∧ exG4.dependencies N4.R = [] ∧
    (∀ x : N4, exG4.dependencies x = [] → x = N4.R) ∧
    (∀ a : N4, getRootNode exG4 a = some N4.R) := by
  have hac : AcyclicDeps exG4 :=
    acyclicDeps_of_rank exG4
      (fun n => match n with | .R => 0 | .B => 1 | .C => 1 | .D => 2) (by decide)
  exact ⟨hac, rfl, by decide, getRootNode_unique_root exG4 hac N4.R rfl (by decide)⟩

/-- Claim C9, counterexample to the claim as stated: `twoRootsG3` is
connected (and symmetric, duplicate-free and acyclic, hence constructible
through the public API), yet `getRootNode()` returns `B` when called on
`A` but `C` when called on `C`, because `A.dependencies = [B, C]` and the
walk follows only the first entry. -/
theorem getRootNode_connected_cex :
    EdgeSymm twoRootsG3 ∧ NodupEdges twoRootsG3 ∧ IsConnected twoRootsG3 ∧
    getRootNode twoRootsG3 N3.A = some N3.B ∧
    getRootNode twoRootsG3 N3.C = some N3.C ∧ N3.B ≠ N3.C := by
  refine ⟨by decide, by decide, ?_, by decide, by decide, by decide⟩
  have hAB : Relation.ReflTransGen (fun x y => y ∈ neighbors twoRootsG3 x) N3.A N3.B :=
    Relation.ReflTransGen.single (by decide)
  have hAC : Relation.ReflTransGen (fun x y => y ∈ neighbors twoRootsG3 x) N3.A N3.C :=
    Relation.ReflTransGen.single (by decide)
  have hBA : Relation.ReflTransGen (fun x y => y ∈ neighbors twoRootsG3 x) N3.B N3.A :=
    Relation.ReflTransGen.single (by decide)
  have hCA : Relation.ReflTransGen (fun x y => y ∈ neighbors twoRootsG3 x) N3.C N3.A :=
    Relation.ReflTransGen.single (by decide)
  intro a b
  cases a <;> cases b
  · exact Relation.ReflTransGen.refl
  · exact hAB
  · exact hAC
  · exact hBA
  · exact Relation.ReflTransGen.refl
  · exact hBA.trans hAC
  · exact hCA
  · exact hCA.trans hAB
  · exact Relation.ReflTransGen.refl

/-! ## Traversal lemmas and claims C2, C10 -/

theorem enqueueNew_subset : ∀ (l : List ι) (v : Finset ι), v ⊆ (enqueueNew v l).2
  | [], _ => Finset.Subset.refl _
  | m :: ms, v => by
    rw [enqueueNew]
    split_ifs with h
    · exact enqueueNew_subset ms v
    · exact (Finset.subset_insert m v).trans (enqueueNew_subset ms (insert m v))

theorem enqueueNew_mem_input : ∀ (l : List ι) (v : Finset ι) (m : ι),
    m ∈ l → m ∈ (enqueueNew v l).2
  | [], _, _, h => absurd h (List.not_mem_nil _)
  | m' :: ms, v, m, h => by
    rw [enqueueNew]
    rcases List.mem_cons.1 h with rfl | hms
    · split_ifs with hv
      · exact enqueueNew_subset ms v hv
      · exact enqueueNew_subset ms (insert m v) (Finset.mem_insert_self m v)
    · split_ifs with hv
      · exact enqueueNew_mem_input ms v m hms
      · exact enqueueNew_mem_input ms (insert m' v) m hms

theorem enqueueNew_new_not_visited : ∀ (l : List ι) (v : Finset ι) (m : ι),
    m ∈ (enqueueNew v l).1 → m ∉ v
  | [], _, _, h => absurd h (List.not_mem_nil _)
  | m' :: ms, v, m, h => by
    rw [enqueueNew] at h
    split_ifs at h with hv
    · exact enqueueNew_new_not_visited ms v m h
    · rcases List.mem_cons.1 h with rfl | hms
      · exact hv
      · exact fun hmv =>
          enqueueNew_new_not_visited ms (insert m' v) m hms (Finset.mem_insert_of_mem hmv)

theorem enqueueNew_new_mem_input : ∀ (l : List ι) (v : Finset ι) (m : ι),
    m ∈ (enqueueNew v l).1 → m ∈ l
  | [], _, _, h => absurd h (List.not_mem_nil _)
  | m' :: ms, v, m, h => by
    rw [enqueueNew] at h
    split_ifs at h with hv
    · exact List.mem_cons_of_mem m' (enqueueNew_new_mem_input ms v m h)
    · rcases List.mem_cons.1 h with rfl | hms
      · exact List.mem_cons_self m ms
      · exact List.mem_cons_of_mem m' (enqueueNew_new_mem_input ms (insert m' v) m hms)

theorem enqueueNew_nodup : ∀ (l : List ι) (v : Finset ι), (enqueueNew v l).1.Nodup
  | [], _ => List.nodup_nil
  | m' :: ms, v => by
    rw [enqueueNew]
    split_ifs with hv
    · exact enqueueNew_nodup ms v
    · refine List.nodup_cons.2 ⟨fun hmem => ?_, enqueueNew_nodup ms (insert m' v)⟩
      exact enqueueNew_new_not_visited ms (insert m' v) m' hmem (Finset.mem_insert_self m' v)

theorem enqueueNew_visited_iff : ∀ (l : List ι) (v : Finset ι) (x : ι),
    x ∈ (enqueueNew v l).2 ↔ x ∈ v ∨ x ∈ (enqueueNew v l).1
  | [], v, x => by
    rw [enqueueNew]
    simp
  | m' :: ms, v, x => by
    rw [enqueueNew]
    split_ifs with hv
    · exact enqueueNew_visited_iff ms v x
    · rw [enqueueNew_visited_iff ms (insert m' v) x, Finset.mem_insert, List.mem_cons]
      tauto

theorem enqueueNew_card : ∀ (l : List ι) (v : Finset ι),
    (enqueueNew v l).2.card = v.card + (enqueueNew v l).1.length
  | [], _ => rfl
  | m' :: ms, v => by
    rw [enqueueNew]
    split_ifs with hv
    · exact enqueueNew_card ms v
    · rw [show (m' :: (enqueueNew (insert m' v) ms).1, (enqueueNew (insert m' v) ms).2).2 =
        (enqueueNew (insert m' v) ms).2 from rfl]
      rw [enqueueNew_card ms (insert m' v), Finset.card_insert_of_not_mem hv]
      simp [Nat.add_comm, Nat.add_assoc, Nat.add_left_comm]

theorem traverseAuxF_isSome (next : ι → List ι) :
    ∀ (fuel : ℕ) (queue : List (ι × List ι)) (visited : Finset ι),
      queue.length + (Fintype.card ι - visited.card) ≤ fuel →
      ∃ out, traverseAuxF next fuel queue visited = some out := by
  intro fuel
  induction fuel with
  | zero =>
    intro queue visited h
    cases queue with
    | nil => exact ⟨[], rfl⟩
    | cons e q => simp at h
  | succ fuel ih =>
    intro queue visited h
    cases queue with
    | nil => exact ⟨[], rfl⟩
    | cons e q =>
      obtain ⟨n, rest⟩ := e
      have hcard := enqueueNew_card (next n) visited
      have hle : (enqueueNew visited (next n)).2.card ≤ Fintype.card ι :=
        Finset.card_le_univ _
      obtain ⟨out, hout⟩ := ih
        (q ++ (enqueueNew visited (next n)).1.map (fun m => (m, n :: rest)))
        (enqueueNew visited (next n)).2
        (by
          rw [List.length_append, List.length_map]
          simp only [List.length_cons] at h
          omega)
      exact ⟨(n, n :: rest) :: out, by rw [traverseAuxF, hout]⟩

theorem traverseAuxF_origin (next : ι → List ι) :
    ∀ (fuel : ℕ) (queue : List (ι × List ι)) (visited : Finset ι) (out : List (ι × List ι)),
      traverseAuxF next fuel queue visited = some out →
      ∀ x ∈ out.map Prod.fst, x ∈ queue.map Prod.fst ∨ x ∉ visited := by
  intro fuel
  induction fuel with
  | zero =>
    intro queue visited out h x hx
    cases queue with
    | nil =>
      cases h
      simp at hx
    | cons e q => cases h
  | succ fuel ih =>
    intro queue visited out h x hx
    cases queue with
    | nil =>
      cases h
      simp at hx
    | cons e q =>
      obtain ⟨n, rest⟩ := e
      rw [traverseAuxF] at h
      cases hrec : traverseAuxF next fuel
          (q ++ (enqueueNew visited (next n)).1.map (fun m => (m, n :: rest)))
          (enqueueNew visited (next n)).2 with
      | none => rw [hrec] at h; cases h
      | some out' =>
        rw [hrec] at h
        cases h
        rcases List.mem_cons.1 hx with rfl | hx'
        · exact Or.inl (List.mem_cons_self _ _)
        · rcases ih _ _ _ hrec x hx' with hq | hv
          · rw [List.map_append, List.mem_append] at hq
            rcases hq with hq | hnew
            · exact Or.inl (List.mem_cons_of_mem _ hq)
            · rw [List.map_map] at hnew
              have : x ∈ (enqueueNew visited (next n)).1 := by simpa using hnew
              exact Or.inr (enqueueNew_new_not_visited _ _ _ this)
          · exact Or.inr (fun hmem => hv (enqueueNew_subset _ _ hmem))

theorem traverseAuxF_queue_sub (next : ι → List ι) :
    ∀ (fuel : ℕ) (queue : List (ι × List ι)) (visited : Finset ι) (out : List (ι × List ι)),
      traverseAuxF next fuel queue visited = some out →
      ∀ e ∈ queue, e.1 ∈ out.map Prod.fst := by
  intro fuel
  induction fuel with
  | zero =>
    intro queue visited out h e he
    cases queue with
    | nil => cases he
    | cons e' q => cases h
  | succ fuel ih =>
    intro queue visited out h e he
    cases queue with
    | nil => cases he
    | cons e' q =>
      obtain ⟨n, rest⟩ := e'
      rw [traverseAuxF] at h
      cases hrec : traverseAuxF next fuel
          (q ++ (enqueueNew visited (next n)).1.map (fun m => (m, n :: rest)))
          (enqueueNew visited (next n)).2 with
      | none => rw [hrec] at h; cases h
      | some out' =>
        rw [hrec] at h
        cases h
        rcases List.mem_cons.1 he with rfl | he'
        · exact List.mem_cons_self _ _
        · exact List.mem_cons_of_mem _
            (ih _ _ _ hrec e (List.mem_append_left _ he'))

theorem traverseAuxF_nodup (next : ι → List ι) :
    ∀ (fuel : ℕ) (queue : List (ι × List ι)) (visited : Finset ι) (out : List (ι × List ι)),
      traverseAuxF next fuel queue visited = some out →
      (queue.map Prod.fst).Nodup → (∀ x ∈ queue.map Prod.fst, x ∈ visited) →
      (out.map Prod.fst).Nodup := by
  intro fuel
  induction fuel with
  | zero =>
    intro queue visited out h hnd hqv
    cases queue with
    | nil => cases h; exact List.nodup_nil
    | cons e q => cases h
  | succ fuel ih =>
    intro queue visited out h hnd hqv
    cases queue with
    | nil => cases h; exact List.nodup_nil
    | cons e q =>
      obtain ⟨n, rest⟩ := e
      rw [traverseAuxF] at h
      cases hrec : traverseAuxF next fuel
          (q ++ (enqueueNew visited (next n)).1.map (fun m => (m, n :: rest)))
          (enqueueNew visited (next n)).2 with
      | none => rw [hrec] at h; cases h
      | some out' =>
        rw [hrec] at h
        cases h
        have hn_vis : n ∈ visited := hqv n (List.mem_cons_self _ _)
        have hndq : (q.map Prod.fst).Nodup := (List.nodup_cons.1 (by simpa using hnd)).2
        have hnq : n ∉ q.map Prod.fst := (List.nodup_cons.1 (by simpa using hnd)).1
        have hqv' : ∀ x ∈ q.map Prod.fst, x ∈ visited :=
          fun x hx => hqv x (List.mem_cons_of_mem _ hx)
        refine List.nodup_cons.2 ⟨?_, ?_⟩
        · intro hmem
          rcases traverseAuxF_origin next _ _ _ _ hrec n hmem with hq | hv
          · rw [List.map_append, List.mem_append] at hq
            rcases hq with hq | hnew
            · exact hnq hq
            · rw [List.map_map] at hnew
              exact enqueueNew_new_not_visited _ _ _ (by simpa using hnew) hn_vis
          · exact hv (enqueueNew_subset _ _ hn_vis)
        · refine ih _ _ _ hrec ?_ ?_
          · rw [List.map_append, List.map_map]
            refine List.Nodup.append hndq ?_ ?_
            · rw [show (Prod.fst ∘ fun m => (m, n :: rest)) = id from rfl, List.map_id]
              exact enqueueNew_nodup (next n) visited
            intro x hx1 hx2
            exact enqueueNew_new_not_visited _ _ _ (by simpa using hx2) (hqv' x hx1)
          · intro x hx
            rw [List.map_append, List.mem_append] at hx
            rcases hx with hx | hx
            · exact enqueueNew_subset _ _ (hqv' x hx)
            · rw [List.map_map] at hx
              exact (enqueueNew_visited_iff _ _ _).2 (Or.inr (by simpa using hx))

theorem traverseAuxF_sound (next : ι → List ι) (P : ι → Prop)
    (hstep : ∀ a b : ι, P a → b ∈ next a → P b) :
    ∀ (fuel : ℕ) (queue : List (ι × List ι)) (visited : Finset ι) (out : List (ι × List ι)),
      traverseAuxF next fuel queue visited = some out →
      (∀ e ∈ queue, P e.1) → ∀ e ∈ out, P e.1 := by
  intro fuel
  induction fuel with
  | zero =>
    intro queue visited out h hP e he
    cases queue with
    | nil => cases h; cases he
    | cons e' q => cases h
  | succ fuel ih =>
    intro queue visited out h hP e he
    cases queue with
    | nil => cases h; cases he
    | cons e' q =>
      obtain ⟨n, rest⟩ := e'
      rw [traverseAuxF] at h
      cases hrec : traverseAuxF next fuel
          (q ++ (enqueueNew visited (next n)).1.map (fun m => (m, n :: rest)))
          (enqueueNew visited (next n)).2 with
      | none => rw [hrec] at h; cases h
      | some out' =>
        rw [hrec] at h
        cases h
        rcases List.mem_cons.1 he with rfl | he'
        · exact hP (n, rest) (List.mem_cons_self _ _)
        · refine ih _ _ _ hrec ?_ e he'
          intro e2 he2
          rcases List.mem_append.1 he2 with h2 | h2
          · exact hP e2 (List.mem_cons_of_mem _ h2)
          · obtain ⟨m, hm, rfl⟩ := List.mem_map.1 h2
            exact hstep n m (hP (n, rest) (List.mem_cons_self _ _))
              (enqueueNew_new_mem_input _ _ _ hm)

theorem traverseAuxF_closure (next : ι → List ι) :
    ∀ (fuel : ℕ) (queue : List (ι × List ι)) (visited : Finset ι) (out : List (ι × List ι)),
      traverseAuxF next fuel queue visited = some out →
      (∀ e ∈ queue, e.1 ∈ visited) →
      (∀ v ∈ visited, v ∉ queue.map Prod.fst → ∀ m ∈ next v, m ∈ visited) →
      ∀ v : ι, (v ∈ visited ∨ v ∈ out.map Prod.fst) →
        ∀ m ∈ next v, m ∈ visited ∨ m ∈ out.map Prod.fst := by
  intro fuel
  induction fuel with
  | zero =>
    intro queue visited out h hqv hcov v hv m hm
    cases queue with
    | nil =>
      cases h
      simp only [List.map_nil, List.not_mem_nil, or_false] at hv ⊢
      exact hcov v hv (List.not_mem_nil v) m hm
    | cons e q => cases h
  | succ fuel ih =>
    intro queue visited out h hqv hcov v hv m hm
    cases queue with
    | nil =>
      cases h
      simp only [List.map_nil, List.not_mem_nil, or_false] at hv ⊢
      exact hcov v hv (List.not_mem_nil v) m hm
    | cons e q =>
      obtain ⟨n, rest⟩ := e
      rw [traverseAuxF] at h
      cases hrec : traverseAuxF next fuel
          (q ++ (enqueueNew visited (next n)).1.map (fun m => (m, n :: rest)))
          (enqueueNew visited (next n)).2 with
      | none => rw [hrec] at h; cases h
      | some out' =>
        rw [hrec] at h
        cases h
        have hqv' : ∀ e ∈ q ++ (enqueueNew visited (next n)).1.map (fun m => (m, n :: rest)),
            e.1 ∈ (enqueueNew visited (next n)).2 := by
          intro e2 he2
          rcases List.mem_append.1 he2 with h2 | h2
          · exact enqueueNew_subset _ _ (hqv e2 (List.mem_cons_of_mem _ h2))
          · obtain ⟨m2, hm2, rfl⟩ := List.mem_map.1 h2
            exact (enqueueNew_visited_iff _ _ _).2 (Or.inr hm2)
        have hcov' : ∀ v2 ∈ (enqueueNew visited (next n)).2,
            v2 ∉ (q ++ (enqueueNew visited (next n)).1.map
              (fun m => (m, n :: rest))).map Prod.fst →
            ∀ m2 ∈ next v2, m2 ∈ (enqueueNew visited (next n)).2 := by
          intro v2 hv2 hnq m2 hm2
          rcases (enqueueNew_visited_iff _ _ _).1 hv2 with hv2v | hv2new
          · by_cases hvn : v2 = n
            · subst hvn
              exact enqueueNew_mem_input _ _ _ hm2
            · have hv2nq : v2 ∉ q.map Prod.fst := fun h3 =>
                hnq (by rw [List.map_append, List.mem_append]; exact Or.inl h3)
              have : v2 ∉ ((n, rest) :: q).map Prod.fst := by
                rw [List.map_cons]
                intro hmem
                rcases List.mem_cons.1 hmem with h3 | h3
                · exact hvn h3
                · exact hv2nq h3
              exact enqueueNew_subset _ _ (hcov v2 hv2v this m2 hm2)
          · refine absurd ?_ hnq
            rw [List.map_append, List.mem_append, List.map_map]
            exact Or.inr (by simpa using hv2new)
        have hVtrans : ∀ x, x ∈ (enqueueNew visited (next n)).2 →
            x ∈ visited ∨ x ∈ out'.map Prod.fst := by
          intro x hx
          rcases (enqueueNew_visited_iff _ _ _).1 hx with hxv | hxnew
          · exact Or.inl hxv
          · refine Or.inr ?_
            have : (x, n :: rest) ∈ q ++ (enqueueNew visited (next n)).1.map
                (fun m => (m, n :: rest)) := by
              rw [List.mem_append]
              exact Or.inr (List.mem_map.2 ⟨x, hxnew, rfl⟩)
            exact traverseAuxF_queue_sub next _ _ _ _ hrec (x, n :: rest) this
        have hmain : ∀ v2, (v2 ∈ (enqueueNew visited (next n)).2 ∨ v2 ∈ out'.map Prod.fst) →
            ∀ m2 ∈ next v2, m2 ∈ visited ∨
              m2 ∈ (((n, n :: rest) :: out').map Prod.fst) := by
          intro v2 hv2 m2 hm2
          rcases ih _ _ _ hrec hqv' hcov' v2 hv2 m2 hm2 with hV | hout
          · rcases hVtrans m2 hV with h3 | h3
            · exact Or.inl h3
            · exact Or.inr (by simpa using Or.inr h3)
          · exact Or.inr (by simpa using Or.inr hout)
        rcases hv with hv | hv
        · exact hmain v (Or.inl (enqueueNew_subset _ _ hv)) m hm
        · rw [List.map_cons] at hv
          rcases List.mem_cons.1 hv with rfl | hv'
          · exact hmain v
              (Or.inl (enqueueNew_subset _ _ (hqv (v, rest) (List.mem_cons_self _ _)))) m hm
          · exact hmain v (Or.inr hv') m hm

theorem traverseGenerator_eq (next : ι → List ι) (start : ι) :
    traverseAuxF next (Fintype.card ι) [(start, [])] ({start} : Finset ι) =
      some (traverseGenerator next start) := by
  have hpos : 0 < Fintype.card ι := Fintype.card_pos_iff.2 ⟨start⟩
  obtain ⟨out, hout⟩ := traverseAuxF_isSome next (Fintype.card ι) [(start, [])] {start}
    (by simp; omega)
  rw [hout, traverseGenerator, hout]
  rfl

/-- Claim C2: for every finite graph (in particular every finite acyclic
one) and every expansion function, `traverse` / `traverseGenerator`
started at a node yields exactly the nodes reachable from it via
`getNextNodes`, each exactly once — deduplication is by node id, which
this embedding identifies with the node, so diamond shapes produce no
duplicate visits. -/
theorem traverse_complete_unique (next : ι → List ι) (start m : ι) :
    (m ∈ (traverseGenerator next start).map Prod.fst ↔ Reaches next start m) ∧
    ((traverseGenerator next start).map Prod.fst).Nodup := by
  have hout := traverseGenerator_eq next start
  constructor
  · constructor
    · intro hm
      obtain ⟨e, he, rfl⟩ := List.mem_map.1 hm
      refine traverseAuxF_sound next (Reaches next start)
        (fun a b pa hb => Relation.ReflTransGen.tail pa hb) _ _ _ _ hout ?_ e he
      intro e0 he0
      rcases List.mem_cons.1 he0 with rfl | h0
      · exact Relation.ReflTransGen.refl
      · cases h0
    · intro hr
      have hstartout : start ∈ (traverseGenerator next start).map Prod.fst :=
        traverseAuxF_queue_sub next _ _ _ _ hout (start, []) (List.mem_cons_self _ _)
      have hclose := traverseAuxF_closure next _ _ _ _ hout
        (by
          intro e he
          rcases List.mem_cons.1 he with rfl | h0
          · exact Finset.mem_singleton_self start
          · cases h0)
        (by
          intro v hv hnq m2 hm2
          rw [Finset.mem_singleton] at hv
          subst hv
          exact absurd (by simp) hnq)
      have hS : ∀ x : ι, Reaches next start x →
          x ∈ ({start} : Finset ι) ∨ x ∈ (traverseGenerator next start).map Prod.fst := by
        intro x hx
        induction hx with
        | refl => exact Or.inl (Finset.mem_singleton_self start)
        | tail hab hbc ih => exact hclose _ ih _ hbc
      rcases hS m hr with h1 | h1
      · rw [Finset.mem_singleton] at h1
        subst h1
        exact hstartout
      · exact h1
  · exact traverseAuxF_nodup next _ _ _ _ hout (by simp) (by simp)

/-- Claim C10: on every finite node universe and for every expansion
function — including ones whose edge structure contains cycles — the
traversal loop terminates (the fuel `Fintype.card ι` provably suffices,
`traverseGenerator_eq`) and yields finitely many elements, at most one per
distinct node id, because ids enter the visited set at enqueue time and
are never enqueued again. -/
theorem traverse_finite (next : ι → List ι) (start : ι) :
    ((traverseGenerator next start).map Prod.fst).Nodup ∧
    (traverseGenerator next start).length ≤ Fintype.card ι := by
  have hout := traverseGenerator_eq next start
  have hnd := traverseAuxF_nodup next _ _ _ _ hout (by simp) (by simp)
  refine ⟨hnd, ?_⟩
  have := hnd.length_le_card
  rwa [List.length_map] at this

/-! ## Shortest-path lemmas and claim C7 -/

theorem reachInN_succ_subset (next : ι → List ι) (start : ι) (k : ℕ) :
    reachInN next start k ⊆ reachInN next start (k + 1) := by
  rw [show reachInN next start (k + 1) = reachInN next start k ∪
    (reachInN next start k).biUnion (fun v => (next v).toFinset) from rfl]
  exact Finset.subset_union_left

theorem reachInN_mono (next : ι → List ι) (start : ι) {j k : ℕ} (h : j ≤ k) :
    reachInN next start j ⊆ reachInN next start k := by
  induction h with
  | refl => exact Finset.Subset.refl _
  | step _ ih => exact ih.trans (reachInN_succ_subset next start _)

theorem reachInN_step (next : ι → List ι) (start : ι) {k : ℕ} {v m : ι}
    (hv : v ∈ reachInN next start k) (hm : m ∈ next v) :
    m ∈ reachInN next start (k + 1) := by
  rw [show reachInN next start (k + 1) = reachInN next start k ∪
    (reachInN next start k).biUnion (fun v => (next v).toFinset) from rfl]
  exact Finset.mem_union_right _ (Finset.mem_biUnion.2 ⟨v, hv, List.mem_toFinset.2 hm⟩)

theorem validRevPath_getLast (next : ι → List ι) (start : ι) :
    ∀ q : List ι, ValidRevPath next start q → q.getLast? = some start
  | [], h => h.elim
  | [n], h => by
    have hn : n = start := h
    rw [hn]
    rfl
  | n :: m :: p, h =>
    have h2 : ValidRevPath next start (m :: p) := h.2
    by rw [List.getLast?_cons_cons]; exact validRevPath_getLast next start (m :: p) h2

theorem validRevPath_head_reachIn (next : ι → List ι) (start : ι) :
    ∀ (q : List ι) (m : ι), ValidRevPath next start q → q.head? = some m →
      ∃ k, q.length = k + 1 ∧ m ∈ reachInN next start k
  | [], _, h, _ => h.elim
  | [n], m, h, hh => by
    have hn : n = start := h
    have hm : n = m := by
      rw [List.head?_cons] at hh
      exact Option.some.inj hh
    exact ⟨0, rfl, by rw [← hm, hn]; exact Finset.mem_singleton_self start⟩
  | n :: m' :: p, m, h, hh => by
    obtain ⟨hstep, hrest⟩ := (h : n ∈ next m' ∧ ValidRevPath next start (m' :: p))
    obtain ⟨k', hlen, hk'⟩ := validRevPath_head_reachIn next start (m' :: p) m' hrest rfl
    have hm : n = m := by
      rw [List.head?_cons] at hh
      exact Option.some.inj hh
    refine ⟨k' + 1, by simp only [List.length_cons] at hlen ⊢; omega, ?_⟩
    rw [← hm]
    exact reachInN_step next start hk' hstep

theorem traverseAuxF_shortest (next : ι → List ι) (start : ι) :
    ∀ (fuel : ℕ) (queue : List (ι × List ι)) (visited : Finset ι) (out : List (ι × List ι)),
      traverseAuxF next fuel queue visited = some out →
      (∀ e ∈ queue, ValidRevPath next start (e.1 :: e.2)) →
      (∀ e ∈ queue, e.1 ∈ visited) →
      (∀ v ∈ visited, v ∉ queue.map Prod.fst → ∀ m ∈ next v, m ∈ visited) →
      (∀ e ∈ queue, e.1 ∈ reachInN next start e.2.length ∧
        ∀ j, e.1 ∈ reachInN next start j → e.2.length ≤ j) →
      (∃ d a b, queue.map (fun e => e.2.length) =
        List.replicate a d ++ List.replicate b (d + 1) ∧ (queue = [] ∨ 0 < a) ∧
        ∀ u ∈ reachInN next start d, u ∈ visited) →
      ∀ e ∈ out, ∃ prev, e.2 = e.1 :: prev ∧ ValidRevPath next start e.2 ∧
        e.1 ∈ reachInN next start prev.length ∧
        ∀ j, e.1 ∈ reachInN next start j → prev.length ≤ j := by
  intro fuel
  induction fuel with
  | zero =>
    intro queue visited out h _ _ _ _ _ e he
    cases queue with
    | nil => cases h; cases he
    | cons e0 q => cases h
  | succ fuel ih =>
    intro queue visited out h hval hqv hcov hdist hshape
    cases queue with
    | nil => cases h; intro e he; cases he
    | cons e0 q =>
      obtain ⟨n, rest⟩ := e0
      rw [traverseAuxF] at h
      cases hrec : traverseAuxF next fuel
          (q ++ (enqueueNew visited (next n)).1.map (fun m => (m, n :: rest)))
          (enqueueNew visited (next n)).2 with
      | none => rw [hrec] at h; cases h
      | some out' =>
        rw [hrec] at h
        cases h
        obtain ⟨d, a, b, hsh, hane, hfront⟩ := hshape
        have hapos : 0 < a := by
          rcases hane with h0 | h0
          · exact absurd h0 (List.cons_ne_nil _ _)
          · exact h0
        obtain ⟨a', rfl⟩ : ∃ a', a = a' + 1 := ⟨a - 1, by omega⟩
        rw [List.replicate_succ, List.map_cons, List.cons_append, List.cons.injEq] at hsh
        obtain ⟨hrd, hqlen⟩ := hsh
        have hvalhead : ValidRevPath next start (n :: rest) :=
          hval (n, rest) (List.mem_cons_self _ _)
        have hdisthead := hdist (n, rest) (List.mem_cons_self _ _)
        have hnvis : n ∈ visited := hqv (n, rest) (List.mem_cons_self _ _)
        -- hypotheses of the recursive call
        have hvalN : ∀ e ∈ q ++ (enqueueNew visited (next n)).1.map (fun m => (m, n :: rest)),
            ValidRevPath next start (e.1 :: e.2) := by
          intro e2 he2
          rcases List.mem_append.1 he2 with h2 | h2
          · exact hval e2 (List.mem_cons_of_mem _ h2)
          · obtain ⟨m2, hm2, rfl⟩ := List.mem_map.1 h2
            exact ⟨enqueueNew_new_mem_input _ _ _ hm2, hvalhead⟩
        have hqvN : ∀ e ∈ q ++ (enqueueNew visited (next n)).1.map (fun m => (m, n :: rest)),
            e.1 ∈ (enqueueNew visited (next n)).2 := by
          intro e2 he2
          rcases List.mem_append.1 he2 with h2 | h2
          · exact enqueueNew_subset _ _ (hqv e2 (List.mem_cons_of_mem _ h2))
          · obtain ⟨m2, hm2, rfl⟩ := List.mem_map.1 h2
            exact (enqueueNew_visited_iff _ _ _).2 (Or.inr hm2)
        have hcovN : ∀ v2 ∈ (enqueueNew visited (next n)).2,
            v2 ∉ (q ++ (enqueueNew visited (next n)).1.map
              (fun m => (m, n :: rest))).map Prod.fst →
            ∀ m2 ∈ next v2, m2 ∈ (enqueueNew visited (next n)).2 := by
          intro v2 hv2 hnq m2 hm2
          rcases (enqueueNew_visited_iff _ _ _).1 hv2 with hv2v | hv2new
          · by_cases hvn : v2 = n
            · subst hvn
              exact enqueueNew_mem_input _ _ _ hm2
            · have hv2nq : v2 ∉ q.map Prod.fst := fun h3 =>
                hnq (by rw [List.map_append, List.mem_append]; exact Or.inl h3)
              have : v2 ∉ ((n, rest) :: q).map Prod.fst := by
                rw [List.map_cons]
                intro hmem
                rcases List.mem_cons.1 hmem with h3 | h3
                · exact hvn h3
                · exact hv2nq h3
              exact enqueueNew_subset _ _ (hcov v2 hv2v this m2 hm2)
          · refine absurd ?_ hnq
            rw [List.map_append, List.mem_append, List.map_map]
            exact Or.inr (by simpa using hv2new)
        have hdistN : ∀ e ∈ q ++ (enqueueNew visited (next n)).1.map (fun m => (m, n :: rest)),
            e.1 ∈ reachInN next start e.2.length ∧
              ∀ j, e.1 ∈ reachInN next start j → e.2.length ≤ j := by
          intro e2 he2
          rcases List.mem_append.1 he2 with h2 | h2
          · exact hdist e2 (List.mem_cons_of_mem _ h2)
          · obtain ⟨m2, hm2, rfl⟩ := List.mem_map.1 h2
            constructor
            · exact reachInN_step next start hdisthead.1 (enqueueNew_new_mem_input _ _ _ hm2)
            · intro j hj
              by_contra hlt
              push_neg at hlt
              have hjd : j ≤ d := by
                simp only [List.length_cons] at hlt
                rw [hrd] at hlt
                omega
              have : m2 ∈ visited :=
                hfront m2 (reachInN_mono next start hjd hj)
              exact enqueueNew_new_not_visited _ _ _ hm2 this
        have hmaplen : ((enqueueNew visited (next n)).1.map
            (fun m => (m, n :: rest))).map (fun e => e.2.length) =
            List.replicate (enqueueNew visited (next n)).1.length (d + 1) := by
          refine List.eq_replicate_iff.2 ⟨by simp, ?_⟩
          intro x hx
          rw [List.map_map] at hx
          obtain ⟨m2, _, hxe⟩ := List.mem_map.1 hx
          rw [← hxe]
          show (n :: rest).length = d + 1
          rw [List.length_cons, hrd]
        have hshapeN : ∃ d2 a2 b2,
            (q ++ (enqueueNew visited (next n)).1.map
              (fun m => (m, n :: rest))).map (fun e => e.2.length) =
              List.replicate a2 d2 ++ List.replicate b2 (d2 + 1) ∧
            (q ++ (enqueueNew visited (next n)).1.map (fun m => (m, n :: rest)) = [] ∨
              0 < a2) ∧
            ∀ u ∈ reachInN next start d2, u ∈ (enqueueNew visited (next n)).2 := by
          cases a' with
          | succ a'' =>
            refine ⟨d, a'' + 1, b + (enqueueNew visited (next n)).1.length, ?_, Or.inr
              (Nat.succ_pos _), fun u hu => enqueueNew_subset _ _ (hfront u hu)⟩
            rw [List.map_append, hqlen, hmaplen, List.append_assoc, ← List.replicate_add]
          | zero =>
            rw [List.replicate_zero, List.nil_append] at hqlen
            have hqall : ∀ e ∈ q, e.2.length = d + 1 := by
              intro e2 he2
              have hmem : e2.2.length ∈ q.map (fun e => e.2.length) :=
                List.mem_map.2 ⟨e2, he2, rfl⟩
              rw [hqlen] at hmem
              exact List.eq_of_mem_replicate hmem
            refine ⟨d + 1, b + (enqueueNew visited (next n)).1.length, 0, ?_, ?_, ?_⟩
            · rw [List.map_append, hqlen, hmaplen, ← List.replicate_add,
                List.replicate_zero, List.append_nil]
            · by_cases hbk : b + (enqueueNew visited (next n)).1.length = 0
              · refine Or.inl ?_
                have : (q ++ (enqueueNew visited (next n)).1.map
                    (fun m => (m, n :: rest))).map (fun e => e.2.length) = [] := by
                  rw [List.map_append, hqlen, hmaplen, ← List.replicate_add, hbk,
                    List.replicate_zero]
                exact List.map_eq_nil_iff.1 this
              · exact Or.inr (by omega)
            · intro u hu
              rw [show reachInN next start (d + 1) = reachInN next start d ∪
                (reachInN next start d).biUnion (fun v => (next v).toFinset) from rfl] at hu
              rcases Finset.mem_union.1 hu with hu | hu
              · exact enqueueNew_subset _ _ (hfront u hu)
              · obtain ⟨w, hw, hwn⟩ := Finset.mem_biUnion.1 hu
                have hwu : u ∈ next w := List.mem_toFinset.1 hwn
                have hwvis : w ∈ visited := hfront w hw
                by_cases hwn2 : w = n
                · subst hwn2
                  exact enqueueNew_mem_input _ _ _ hwu
                · by_cases hwq : w ∈ q.map Prod.fst
                  · exfalso
                    obtain ⟨e2, he2, rfl⟩ := List.mem_map.1 hwq
                    have hlen2 : e2.2.length = d + 1 := hqall e2 he2
                    have := (hdist e2 (List.mem_cons_of_mem _ he2)).2 d hw
                    omega
                  · have : w ∉ ((n, rest) :: q).map Prod.fst := by
                      rw [List.map_cons]
                      intro hmem
                      rcases List.mem_cons.1 hmem with h3 | h3
                      · exact hwn2 h3
                      · exact hwq h3
                    exact enqueueNew_subset _ _ (hcov w hwvis this u hwu)
        intro e he
        rcases List.mem_cons.1 he with rfl | he'
        · exact ⟨rest, rfl, hvalhead, hdisthead.1, hdisthead.2⟩
        · exact ih _ _ _ hrec hvalN hqvN hcovN hdistN hshapeN e he'

/-- Claim C7: every `{node, traversalPath}` pair yielded by the generator
has `node` first and the traversal start last on the path, each
consecutive element is a `getNextNodes`-image of the one after it, and the
path's length is minimal among all such paths ending at that node (a
shortest path, not necessarily the unique one). -/
theorem traverse_shortest_path (next : ι → List ι) (start : ι) (e : ι × List ι)
    (he : e ∈ traverseGenerator next start) :
    e.2.head? = some e.1 ∧ e.2.getLast? = some start ∧ ValidRevPath next start e.2 ∧
    ∀ q : List ι, ValidRevPath next start q → q.head? = some e.1 →
      e.2.length ≤ q.length := by
  have hout := traverseGenerator_eq next start
  have hstartval : ValidRevPath next start [start] := rfl
  obtain ⟨prev, hp, hvalid, hreach, hmin⟩ :=
    traverseAuxF_shortest next start _ _ _ _ hout
      (by
        intro e0 he0
        rcases List.mem_cons.1 he0 with rfl | h0
        · exact hstartval
        · cases h0)
      (by
        intro e0 he0
        rcases List.mem_cons.1 he0 with rfl | h0
        · exact Finset.mem_singleton_self start
        · cases h0)
      (by
        intro v hv hnq m2 hm2
        rw [Finset.mem_singleton] at hv
        subst hv
        exact absurd (by simp) hnq)
      (by
        intro e0 he0
        rcases List.mem_cons.1 he0 with rfl | h0
        · exact ⟨Finset.mem_singleton_self start, fun j _ => Nat.zero_le j⟩
        · cases h0)
      ⟨0, 1, 0, by simp, Or.inr Nat.one_pos, by
        intro u hu
        rw [show reachInN next start 0 = {start} from rfl] at hu
        exact hu⟩
      e he
  refine ⟨by rw [hp]; rfl, validRevPath_getLast next start e.2 hvalid, hvalid, ?_⟩
  intro q hq hqh
  obtain ⟨k, hlen, hk⟩ := validRevPath_head_reachIn next start q e.1 hq hqh
  have := hmin k hk
  rw [hp]
  simp only [List.length_cons]
  omega

/-- Witness for `traverse_shortest_path`: in the diamond graph the
generator yields `B` with traversal path `[B, R]`, which is a valid
two-node path from `B` back to the start `R` of minimal length. -/
theorem traverse_shortest_path_witness :
    (N4.B, [N4.B, N4.R]) ∈ traverseGenerator exG4.dependents N4.R ∧
    ([N4.B, N4.R].head? = some N4.B ∧ [N4.B, N4.R].getLast? = some N4.R ∧
      ValidRevPath exG4.dependents N4.R [N4.B, N4.R] ∧
      ∀ q : List N4, ValidRevPath exG4.dependents N4.R q → q.head? = some N4.B →
        [N4.B, N4.R].length ≤ q.length) :=
  ⟨by decide,
    traverse_shortest_path exG4.dependents N4.R (N4.B, [N4.B, N4.R]) (by decide)⟩

/-! ## Claim C4: clone-with-predicate ancestor closure -/

/-- Claim C4: cloning the diamond graph (`R → B → D`, `R → C → D` along
dependents; `D` depends on both `B` and `C`) from `D` with a predicate
matching only `D` clones exactly `R`, `B`, `C`, `D` — the entire
dependency chain of every kept node back to the root — and reproduces all
four original dependency edges (and their paired dependents) between the
corresponding clones. -/
theorem cloneWithRelationships_ancestor_closure :
    (∀ n : N4, cloneResultHas (cloneWithRelationships exG4 N4.D (some predD)) n) ∧
    (∀ n : N4, cloneResultDeps (cloneWithRelationships exG4 N4.D (some predD)) n =
      some (exG4.dependencies n)) ∧
    (∀ n : N4, cloneResultDependents (cloneWithRelationships exG4 N4.D (some predD)) n =
      some (exG4.dependents n)) := by
  refine ⟨by decide, by decide, by decide⟩

/-! ## Clone-exclusion lemmas and claim C8 -/

theorem getRootNode_isSome (s : GraphState ι) (hac : AcyclicDeps s) (n : ι) :
    ∃ r, getRootNode s n = some r := by
  obtain ⟨r, hr⟩ := getRootNodeAux_isSome s hac (Fintype.card ι) n ∅
    (by intro m hm; cases hm) (by simp)
  exact ⟨r, by rw [getRootNode, hr]⟩

theorem cloneBackfillAuxF_isSome (s : GraphState ι) :
    ∀ (fuel : ℕ) (queue : List ι) (visited : Finset ι) (map : Finset ι),
      queue.length + (Fintype.card ι - visited.card) ≤ fuel →
      ∃ map', cloneBackfillAuxF s fuel queue visited map = some map' := by
  intro fuel
  induction fuel with
  | zero =>
    intro queue visited map h
    cases queue with
    | nil => exact ⟨map, rfl⟩
    | cons n q => simp at h
  | succ fuel ih =>
    intro queue visited map h
    cases queue with
    | nil => exact ⟨map, rfl⟩
    | cons n q =>
      have hcard := enqueueNew_card
        ((s.dependencies n).filter (fun p => p ∉ insert n map)) visited
      have hle : (enqueueNew visited
          ((s.dependencies n).filter (fun p => p ∉ insert n map))).2.card ≤ Fintype.card ι :=
        Finset.card_le_univ _
      obtain ⟨map', hmap'⟩ := ih
        (q ++ (enqueueNew visited ((s.dependencies n).filter (fun p => p ∉ insert n map))).1)
        (enqueueNew visited ((s.dependencies n).filter (fun p => p ∉ insert n map))).2
        (insert n map)
        (by
          rw [List.length_append]
          simp only [List.length_cons] at h
          omega)
      exact ⟨map', by rw [cloneBackfillAuxF]; exact hmap'⟩

theorem cloneBackfillAuxF_reach (s : GraphState ι) (P : ι → Prop)
    (hstep : ∀ a b : ι, P a → b ∈ s.dependencies a → P b) :
    ∀ (fuel : ℕ) (queue : List ι) (visited map map' : Finset ι),
      cloneBackfillAuxF s fuel queue visited map = some map' →
      (∀ x ∈ queue, P x) → ∀ m ∈ map', m ∈ map ∨ P m := by
  intro fuel
  induction fuel with
  | zero =>
    intro queue visited map map' h hP m hm
    cases queue with
    | nil => cases h; exact Or.inl hm
    | cons n q => cases h
  | succ fuel ih =>
    intro queue visited map map' h hP m hm
    cases queue with
    | nil => cases h; exact Or.inl hm
    | cons n q =>
      rw [cloneBackfillAuxF] at h
      have hPq : ∀ x ∈ q ++ (enqueueNew visited
          ((s.dependencies n).filter (fun p => p ∉ insert n map))).1, P x := by
        intro x hx
        rcases List.mem_append.1 hx with h2 | h2
        · exact hP x (List.mem_cons_of_mem _ h2)
        · have := enqueueNew_new_mem_input _ _ _ h2
          have hdep : x ∈ s.dependencies n := (List.mem_filter.1 this).1
          exact hstep n x (hP n (List.mem_cons_self _ _)) hdep
      rcases ih _ _ _ _ h hPq m hm with h2 | h2
      · rcases Finset.mem_insert.1 h2 with rfl | h3
        · exact Or.inr (hP m (List.mem_cons_self _ _))
        · exact Or.inl h3
      · exact Or.inr h2

theorem cloneBackfillAuxF_closed (s : GraphState ι) :
    ∀ (fuel : ℕ) (queue : List ι) (visited map map' : Finset ι),
      cloneBackfillAuxF s fuel queue visited map = some map' →
      (∀ x ∈ queue, x ∈ visited) →
      (∀ v ∈ visited, v ∈ map ∨ v ∈ queue) →
      (∀ v ∈ map, ∀ dep ∈ s.dependencies v, dep ∈ map ∨ dep ∈ visited) →
      (∀ v ∈ map', ∀ dep ∈ s.dependencies v, dep ∈ map') ∧
        (∀ v ∈ map, v ∈ map') ∧ (∀ v ∈ visited, v ∈ map') := by
  intro fuel
  induction fuel with
  | zero =>
    intro queue visited map map' h hqv hvis hcl
    cases queue with
    | nil =>
      cases h
      have hsub : ∀ v ∈ visited, v ∈ map := by
        intro v hv
        rcases hvis v hv with h2 | h2
        · exact h2
        · cases h2
      refine ⟨?_, fun v hv => hv, hsub⟩
      intro v hv dep hdep
      rcases hcl v hv dep hdep with h2 | h2
      · exact h2
      · exact hsub dep h2
    | cons n q => cases h
  | succ fuel ih =>
    intro queue visited map map' h hqv hvis hcl
    cases queue with
    | nil =>
      cases h
      have hsub : ∀ v ∈ visited, v ∈ map := by
        intro v hv
        rcases hvis v hv with h2 | h2
        · exact h2
        · cases h2
      refine ⟨?_, fun v hv => hv, hsub⟩
      intro v hv dep hdep
      rcases hcl v hv dep hdep with h2 | h2
      · exact h2
      · exact hsub dep h2
    | cons n q =>
      rw [cloneBackfillAuxF] at h
      have hqv' : ∀ x ∈ q ++ (enqueueNew visited
          ((s.dependencies n).filter (fun p => p ∉ insert n map))).1,
          x ∈ (enqueueNew visited
            ((s.dependencies n).filter (fun p => p ∉ insert n map))).2 := by
        intro x hx
        rcases List.mem_append.1 hx with h2 | h2
        · exact enqueueNew_subset _ _ (hqv x (List.mem_cons_of_mem _ h2))
        · exact (enqueueNew_visited_iff _ _ _).2 (Or.inr h2)
      have hvis' : ∀ v ∈ (enqueueNew visited
          ((s.dependencies n).filter (fun p => p ∉ insert n map))).2,
          v ∈ insert n map ∨ v ∈ q ++ (enqueueNew visited
            ((s.dependencies n).filter (fun p => p ∉ insert n map))).1 := by
        intro v hv
        rcases (enqueueNew_visited_iff _ _ _).1 hv with h2 | h2
        · rcases hvis v h2 with h3 | h3
          · exact Or.inl (Finset.mem_insert_of_mem h3)
          · rcases List.mem_cons.1 h3 with rfl | h4
            · exact Or.inl (Finset.mem_insert_self v map)
            · exact Or.inr (List.mem_append_left _ h4)
        · exact Or.inr (List.mem_append_right _ h2)
      have hcl' : ∀ v ∈ insert n map, ∀ dep ∈ s.dependencies v,
          dep ∈ insert n map ∨ dep ∈ (enqueueNew visited
            ((s.dependencies n).filter (fun p => p ∉ insert n map))).2 := by
        intro v hv dep hdep
        rcases Finset.mem_insert.1 hv with rfl | h2
        · by_cases hmem : dep ∈ insert v map
          · exact Or.inl hmem
          · refine Or.inr (enqueueNew_mem_input _ _ _ ?_)
            rw [List.mem_filter]
            exact ⟨hdep, by simpa using hmem⟩
        · rcases hcl v h2 dep hdep with h3 | h3
          · exact Or.inl (Finset.mem_insert_of_mem h3)
          · exact Or.inr (enqueueNew_subset _ _ h3)
      obtain ⟨hc1, hc2, hc3⟩ := ih _ _ _ _ h hqv' hvis' hcl'
      refine ⟨hc1, ?_, ?_⟩
      · intro v hv
        exact hc2 v (Finset.mem_insert_of_mem hv)
      · intro v hv
        exact hc3 v (enqueueNew_subset _ _ hv)

theorem cloneBackfill_spec (s : GraphState ι) (Y : ι) (map : Finset ι)
    (hcl : ∀ v ∈ map, ∀ dep ∈ s.dependencies v, dep ∈ map) :
    ∃ map', cloneBackfill s Y map = some map' ∧
      (∀ v ∈ map', ∀ dep ∈ s.dependencies v, dep ∈ map') ∧
      (∀ v ∈ map, v ∈ map') ∧ Y ∈ map' ∧
      (∀ m ∈ map', m ∈ map ∨ Reaches (fun a => s.dependencies a) Y m) := by
  have hpos : 0 < Fintype.card ι := Fintype.card_pos_iff.2 ⟨Y⟩
  obtain ⟨map', hmap'⟩ := cloneBackfillAuxF_isSome s (Fintype.card ι) [Y] {Y} map
    (by simp; omega)
  rw [cloneBackfill]
  obtain ⟨hc1, hc2, hc3⟩ := cloneBackfillAuxF_closed s _ _ _ _ _ hmap'
    (by
      intro x hx
      rcases List.mem_cons.1 hx with rfl | h0
      · exact Finset.mem_singleton_self x
      · cases h0)
    (by
      intro v hv
      rw [Finset.mem_singleton] at hv
      subst hv
      exact Or.inr (List.mem_cons_self _ _))
    (by
      intro v hv dep hdep
      exact Or.inl (hcl v hv dep hdep))
  refine ⟨map', hmap', hc1, hc2, hc3 Y (Finset.mem_singleton_self Y), ?_⟩
  exact cloneBackfillAuxF_reach s (Reaches (fun a => s.dependencies a) Y)
    (fun a b pa hb => Relation.ReflTransGen.tail pa hb) _ _ _ _ _ hmap'
    (by
      intro x hx
      rcases List.mem_cons.1 hx with rfl | h0
      · exact Relation.ReflTransGen.refl
      · cases h0)

theorem cloneCollect_spec (s : GraphState ι) (p : ι → Bool) :
    ∀ (order : List ι) (map : Finset ι),
      (∀ v ∈ map, ∀ dep ∈ s.dependencies v, dep ∈ map) →
      ∃ map', cloneCollect s (some p) order map = some map' ∧
        (∀ v ∈ map', ∀ dep ∈ s.dependencies v, dep ∈ map') ∧
        (∀ x ∈ map', x ∈ map ∨
          ∃ Y, p Y = true ∧ Reaches (fun a => s.dependencies a) Y x) := by
  intro order
  induction order with
  | nil =>
    intro map hcl
    exact ⟨map, rfl, hcl, fun x hx => Or.inl hx⟩
  | cons node order ih =>
    intro map hcl
    rw [cloneCollect]
    by_cases hmem : node ∈ map
    · rw [if_pos hmem]
      exact ih map hcl
    · rw [if_neg hmem]
      by_cases hp : p node
      · rw [if_pos hp]
        obtain ⟨map1, hmap1, hcl1, hmono1, hY1, hreach1⟩ := cloneBackfill_spec s node map hcl
        rw [hmap1]
        obtain ⟨map', hmap', hcl', hmem'⟩ := ih map1 hcl1
        refine ⟨map', hmap', hcl', ?_⟩
        intro x hx
        rcases hmem' x hx with h2 | h2
        · rcases hreach1 x h2 with h3 | h3
          · exact Or.inl h3
          · exact Or.inr ⟨node, hp, h3⟩
        · exact Or.inr h2
      · rw [if_neg hp]
        exact ih map hcl

theorem cloneEdgesNode_ok (map : Finset ι) (node : ι) :
    ∀ (depsList : List ι) (clone : GraphState ι),
      (∀ dep ∈ depsList, dep ∈ map ∧ dep ≠ node) →
      ∃ c', cloneEdgesNode map node clone depsList = .ok c' := by
  intro depsList
  induction depsList with
  | nil => intro clone _; exact ⟨clone, rfl⟩
  | cons dep rest ih =>
    intro clone h
    have hd := h dep (List.mem_cons_self _ _)
    rw [cloneEdgesNode, if_pos hd.1, addDependency, if_neg hd.2]
    by_cases hmem : dep ∈ clone.dependencies node
    · rw [if_pos hmem]
      exact ih clone (fun d hdm => h d (List.mem_cons_of_mem _ hdm))
    · rw [if_neg hmem]
      exact ih _ (fun d hdm => h d (List.mem_cons_of_mem _ hdm))

theorem cloneEdges_ok (s : GraphState ι) (map : Finset ι) :
    ∀ (order : List ι) (clone : GraphState ι),
      (∀ nd ∈ order, nd ∈ map → ∀ dep ∈ s.dependencies nd, dep ∈ map ∧ dep ≠ nd) →
      ∃ c', cloneEdges s map clone order = .ok c' := by
  intro order
  induction order with
  | nil => intro clone _; exact ⟨clone, rfl⟩
  | cons nd order ih =>
    intro clone h
    rw [cloneEdges]
    by_cases hmem : nd ∈ map
    · rw [if_pos hmem]
      obtain ⟨c1, hc1⟩ := cloneEdgesNode_ok map nd (s.dependencies nd) clone
        (h nd (List.mem_cons_self _ _) hmem)
      rw [hc1]
      exact ih c1 (fun n2 hn2 => h n2 (List.mem_cons_of_mem _ hn2))
    · rw [if_neg hmem]
      exact ih clone (fun n2 hn2 => h n2 (List.mem_cons_of_mem _ hn2))

theorem reaches_flip (s : GraphState ι) (hsym : EdgeSymm s) {Y X : ι}
    (h : Reaches (fun a => s.dependencies a) Y X) :
    Reaches (fun a => s.dependents a) X Y := by
  induction h with
  | refl => exact Relation.ReflTransGen.refl
  | tail _ hstep ih =>
    exact Relation.ReflTransGen.head ((hsym _ _).1 hstep) ih

/-- Claim C8: on a well-formed graph (symmetric edge pairing, acyclic
dependencies — the spec's structural invariants), cloning from a node `X`
with a predicate that rejects `X` and every node reachable from `X` along
dependents terminates and fails with the `Cloned graph missing node` error
(`X`'s id is absent from the clone map), rather than returning a partial
graph: the edge-reconstruction pass succeeds because the backfilled clone
map is closed under dependencies, and the final lookup of `X` fails. -/
theorem clone_exclusion_result_missing (s : GraphState ι) (X : ι) (p : ι → Bool)
    (hsym : EdgeSymm s) (hac : AcyclicDeps s)
    (hp : ∀ m : ι, Reaches (fun a => s.dependents a) X m → p m = false) :
    cloneWithRelationships s X (some p) = some (.error .cloneResultMissing) := by
  obtain ⟨root, hroot⟩ := getRootNode_isSome s hac X
  obtain ⟨map, hmap, hclosed, hfrom⟩ := cloneCollect_spec s p
    ((traverseGenerator s.dependents root).map Prod.fst) ∅
    (by intro v hv; cases hv)
  have hXnot : X ∉ map := by
    intro hX
    rcases hfrom X hX with h0 | ⟨Y, hpY, hYX⟩
    · exact absurd h0 (Finset.not_mem_empty X)
    · rw [hp Y (reaches_flip s hsym hYX)] at hpY
      cases hpY
  obtain ⟨clone, hclone⟩ := cloneEdges_ok s map
    ((traverseGenerator s.dependents root).map Prod.fst) (emptyClone s)
    (by
      intro nd _ hnd dep hdep
      refine ⟨hclosed nd hnd dep hdep, ?_⟩
      intro heq
      subst heq
      exact hac dep (Relation.TransGen.single hdep))
  rw [cloneWithRelationships, hroot]
  dsimp only
  rw [hmap]
  dsimp only
  rw [hclone]
  dsimp only
  rw [if_neg hXnot]

theorem reaches_of_no_next (next : ι → List ι) (a m : ι) (hnil : next a = [])
    (h : Reaches next a m) : m = a := by
  rcases Relation.ReflTransGen.cases_head h with h1 | ⟨c, hc, _⟩
  · exact h1.symm
  · rw [hnil] at hc
    cases hc

/-- Witness for `clone_exclusion_result_missing` on the diamond graph:
`D` has no dependents, and the predicate keeping only `B` excludes `D`, so
cloning from `D` fails with the result-missing error. -/
theorem clone_exclusion_result_missing_witness :
    EdgeSymm exG4 ∧ AcyclicDeps exG4 ∧
    cloneWithRelationships exG4 N4.D (some (fun n => n = N4.B)) =
      some (.error .cloneResultMissing) := by
  have hac : AcyclicDeps exG4 :=
    acyclicDeps_of_rank exG4
      (fun n => match n with | .R => 0 | .B => 1 | .C => 1 | .D => 2) (by decide)
  have hp : ∀ m : N4, Reaches (fun a => exG4.dependents a) N4.D m →
      (fun n => decide (n = N4.B)) m = false := by
    intro m hm
    rw [reaches_of_no_next (fun a => exG4.dependents a) N4.D m rfl hm]
    rfl
  exact ⟨by decide, hac,
    clone_exclusion_result_missing exG4 N4.D (fun n => n = N4.B) (by decide) hac hp⟩

end Lantern
